import Mathlib

/-!
Verification of the stack-safe memoized task executor in
`src/library/dynamic.rs` (repository Lucretiel/advent2020).

The Rust module provides:
  * trait `SubtaskStore<K, V>` with `add`, `get`, `contains` (implemented by
    `HashMap` and `BTreeMap`); we embed the store as an association list whose
    `get` scans from the front, so `add` may shadow an older binding exactly
    like `HashMap::insert` (the old value is returned).
  * `Dependency<K>` — an opaque request token carrying a missing sub-goal key.
  * `TaskInterrupt<K, E> = Dependency(..) | Error(E)`.
  * `DynamicError<K, E> = CircularDependency(K) | Error(E)`.
  * `Subtasker<S>` whose `solve`/`precheck` consult the store and hand back
    `Dependency` tokens for missing keys.
  * `execute(goal, task, store)` — an iterative driver: it repeatedly calls
    `task.solve(current_goal, subtasker)`; `Ok` pops the dependency stack
    (storing the solution) or finishes; `Error` aborts; `Dependency` pushes
    the current goal, checks the stack for a cycle and descends.

A task in Rust is an arbitrary function of the goal and the subtasker view of
the store, so we embed it as `TaskFn : K → Store K V → Except (TaskInterrupt K E) V`.
The Rust loop need not terminate, so the loop is embedded with explicit fuel
(`executeN`); termination claims become statements of the form
"there exists enough fuel".
-/

section DynamicLibrary

variable {K V E : Type}

/-- Association-list embedding of the `SubtaskStore` contract
(`HashMap`/`BTreeMap` in the source). -/
abbrev Store (K V : Type) : Type := List (K × V)

namespace Store

/-- `SubtaskStore::get`: fetch a known solution for a subtask, if possible.
The front-most binding wins, matching map semantics under shadowing. -/
def get [DecidableEq K] : Store K V → K → Option V
  | [], _ => none
  | (k, v) :: rest, goal => if k = goal then some v else get rest goal

/-- `SubtaskStore::contains`: check if a subtask has a known solution. -/
def contains [DecidableEq K] (s : Store K V) (goal : K) : Bool :=
  (s.get goal).isSome

/-- `SubtaskStore::add`: add a subtask solution, returning the old solution if
present (the pair is the Rust return value together with the updated store). -/
def add [DecidableEq K] (s : Store K V) (goal : K) (solution : V) :
    Option V × Store K V :=
  (s.get goal, (goal, solution) :: s)

end Store

/-- `Dependency<K>`: token produced by the subtasker for a missing sub-goal. -/
structure Dependency (K : Type) where
  key : K
  deriving DecidableEq, Repr

/-- `TaskInterrupt<K, E>`. -/
inductive TaskInterrupt (K E : Type) where
  | Dependency : Dependency K → TaskInterrupt K E
  | Error : E → TaskInterrupt K E
  deriving DecidableEq, Repr

/-- `DynamicError<K, E>`. -/
inductive DynamicError (K E : Type) where
  | CircularDependency : K → DynamicError K E
  | Error : E → DynamicError K E
  deriving DecidableEq, Repr

/-- A task (`Task::solve`): given the goal and the current store (which is all
the subtasker can reveal), either produce a solution or interrupt. -/
def TaskFn (K V E : Type) : Type :=
  K → Store K V → Except (TaskInterrupt K E) V

namespace Subtasker

/-- `Subtasker::solve`: fetch the sub-goal from the store, or emit a
`Dependency` token for it. -/
def solve [DecidableEq K] (store : Store K V) (goal : K) :
    Except (Dependency K) V :=
  match store.get goal with
  | some v => .ok v
  | none => .error ⟨goal⟩

/-- `Subtasker::precheck`: `try_for_each` over the goals, failing with a
`Dependency` on the first goal the store does not contain. -/
def precheck [DecidableEq K] (store : Store K V) (goals : List K) :
    Except (Dependency K) Unit :=
  match goals with
  | [] => .ok ()
  | g :: gs => if store.contains g then precheck store gs else .error ⟨g⟩

end Subtasker

/-- The loop state of `execute`: the subtasker's store, the explicit
dependency stack, and the current goal. -/
structure ExecState (K V : Type) where
  store : Store K V
  dependency_stack : List K
  current_goal : K

/-- The chain of in-progress goals: current goal on top of the stack. -/
def ExecState.goalChain (s : ExecState K V) : List K :=
  s.current_goal :: s.dependency_stack

/-- Outcome of one iteration of the `execute` loop. -/
inductive StepOut (K V E : Type) where
  | next : ExecState K V → StepOut K V E
  | done : Except (DynamicError K E) V → Store K V → StepOut K V E

/-- One iteration of the `loop` in `execute`:
  * `Ok(solution)` with empty stack — finish with the solution;
  * `Ok(solution)` with stack top `dependent_goal` — store the solution for
    the current goal, pop, resume the parent;
  * `Error(err)` — finish with `DynamicError::Error(err)`;
  * `Dependency(subgoal)` — push the current goal, then abort with
    `CircularDependency(subgoal)` if `subgoal` is anywhere in the (pushed)
    stack, else descend into `subgoal`. -/
def execStep [DecidableEq K] (task : TaskFn K V E) (s : ExecState K V) :
    StepOut K V E :=
  match task s.current_goal s.store with
  | .ok solution =>
    match s.dependency_stack with
    | [] => .done (.ok solution) s.store
    | dependent_goal :: rest =>
      .next ⟨(s.store.add s.current_goal solution).2, rest, dependent_goal⟩
  | .error (.Error err) => .done (.error (.Error err)) s.store
  | .error (.Dependency dep) =>
    if dep.key ∈ s.current_goal :: s.dependency_stack then
      .done (.error (.CircularDependency dep.key)) s.store
    else
      .next ⟨s.store, s.current_goal :: s.dependency_stack, dep.key⟩

/-- Fuel-indexed unfolding of the `execute` loop, also exposing the final
store (which Rust drops on return). `none` means the fuel ran out. -/
def executeN [DecidableEq K] (task : TaskFn K V E) :
    Nat → ExecState K V → Option (Except (DynamicError K E) V × Store K V)
  | 0, _ => none
  | fuel + 1, s =>
    match execStep task s with
    | .done r st => some (r, st)
    | .next s' => executeN task fuel s'

/-- `execute(goal, task, store)` together with the final store. -/
def executeRun [DecidableEq K] (goal : K) (task : TaskFn K V E)
    (store : Store K V) (fuel : Nat) :
    Option (Except (DynamicError K E) V × Store K V) :=
  executeN task fuel ⟨store, [], goal⟩

/-- `execute(goal, task, store)`: the value the Rust function returns (the
store is consumed and dropped). -/
def execute [DecidableEq K] (goal : K) (task : TaskFn K V E)
    (store : Store K V) (fuel : Nat) :
    Option (Except (DynamicError K E) V) :=
  (executeRun goal task store fuel).map Prod.fst

/-- `Task::solve_all`: run `execute` on a freshly defaulted (empty) store. -/
def solve_all [DecidableEq K] (task : TaskFn K V E) (goal : K) (fuel : Nat) :
    Option (Except (DynamicError K E) V) :=
  execute goal task ([] : Store K V) fuel

/-- Instrumentation: the goals visited by the loop (one entry per invocation
of `task.solve`), in order. -/
def visited [DecidableEq K] (task : TaskFn K V E) :
    Nat → ExecState K V → List K
  | 0, _ => []
  | fuel + 1, s =>
    s.current_goal ::
      match execStep task s with
      | .done _ _ => []
      | .next s' => visited task fuel s'

/-- Instrumentation: the goals for which `task.solve` returned `Ok` (the
successful branch), in order of occurrence. -/
def okVisits [DecidableEq K] (task : TaskFn K V E) :
    Nat → ExecState K V → List K
  | 0, _ => []
  | fuel + 1, s =>
    (match task s.current_goal s.store with
      | .ok _ => [s.current_goal]
      | .error _ => []) ++
    (match execStep task s with
      | .done _ _ => []
      | .next s' => okVisits task fuel s')

/-- Instrumentation: the value returned by each `store.add` call the loop
makes (`some old` would mean an existing entry was overwritten). -/
def addResults [DecidableEq K] (task : TaskFn K V E) :
    Nat → ExecState K V → List (Option V)
  | 0, _ => []
  | fuel + 1, s =>
    (match task s.current_goal s.store with
      | .ok solution =>
        match s.dependency_stack with
        | [] => []
        | _ :: _ => [(s.store.add s.current_goal solution).1]
      | .error _ => []) ++
    (match execStep task s with
      | .done _ _ => []
      | .next s' => addResults task fuel s')

/-- A task whose `Dependency` interrupts only ever name keys the store does
not contain. Every Rust task has this property: `Dependency` has private
fields, so a task can only obtain one from `Subtasker::solve`/`precheck`,
which construct it exactly when `store.contains` is false. -/
def RequestsOnlyMissing [DecidableEq K] (task : TaskFn K V E) : Prop :=
  ∀ k st d, task k st = .error (.Dependency d) → st.contains d.key = false

/-- Iterate `execStep` a fixed number of times, requiring the loop to still
be in progress: `some s'` means `n` iterations lead from `s` to `s'`. -/
def stepN [DecidableEq K] (task : TaskFn K V E) :
    Nat → ExecState K V → Option (ExecState K V)
  | 0, s => some s
  | n + 1, s =>
    match execStep task s with
    | .next s' => stepN task n s'
    | .done _ _ => none

/-- The first sub-goal in `goals` that is missing from the store (the
dependency `Subtasker::precheck` would report). -/
def firstMissing [DecidableEq K] (store : Store K V) (goals : List K) :
    Option K :=
  goals.find? (fun g => !store.contains g)

/-- The task shape the termination claim quantifies over: a task with a fixed
finite dependency list per goal, which (like a `precheck`-style Rust task)
interrupts with its first store-missing dependency and succeeds as soon as
every dependency is available. -/
def taskOf [DecidableEq K] (deps : K → List K) (value : K → Store K V → V) :
    TaskFn K V E :=
  fun k st =>
    match firstMissing st (deps k) with
    | some d => .error (.Dependency ⟨d⟩)
    | none => .ok (value k st)

/-- The sub-goal relation induced by a dependency list: `a` is requested by
`b`. -/
def DepRel (deps : K → List K) (a b : K) : Prop :=
  a ∈ deps b

/-- Fibonacci as a task: base cases solve immediately, the recursive case
requests `n-1` then `n-2` from the subtasker before combining them. -/
def fibTask : TaskFn Nat Nat E :=
  fun n st =>
    if n < 2 then .ok n
    else
      match Subtasker.solve st (n - 1) with
      | .error d => .error (.Dependency d)
      | .ok a =>
        match Subtasker.solve st (n - 2) with
        | .error d => .error (.Dependency d)
        | .ok b => .ok (a + b)

/-- A three-goal cyclic task: goal `0` requests `1`, `1` requests `2`, `2`
requests `0` (the `A → B → C → A` example). -/
def cycleTask : TaskFn Nat Nat Nat :=
  fun k _ => .error (.Dependency ⟨(k + 1) % 3⟩)

/-- A task that always succeeds with a constant. -/
def constTask (v : V) : TaskFn Nat V Nat :=
  fun _ _ => .ok v

/-- A task that always fails with a fatal error. -/
def errTask (e : E) : TaskFn Nat Nat E :=
  fun _ _ => .error (.Error e)

/-- Fibonacci dependency lists, for instantiating the termination theorem. -/
def depsFib (n : Nat) : List Nat :=
  if n < 2 then [] else [n - 1, n - 2]

/-- Fibonacci combination function over an arbitrary store snapshot. -/
def valueFib (n : Nat) (st : Store Nat Nat) : Nat :=
  if n < 2 then n
  else
    match st.get (n - 1), st.get (n - 2) with
    | some a, some b => a + b
    | _, _ => 0

end DynamicLibrary

section DynamicTheorems

variable {K V E : Type}

theorem executeN_next [DecidableEq K] {task : TaskFn K V E} {s s' : ExecState K V}
    (h : execStep task s = .next s') (fuel : Nat) :
    executeN task (fuel + 1) s = executeN task fuel s' := by
  simp [executeN, h]

theorem executeN_done [DecidableEq K] {task : TaskFn K V E} {s : ExecState K V}
    {r : Except (DynamicError K E) V} {st : Store K V}
    (h : execStep task s = .done r st) (fuel : Nat) :
    executeN task (fuel + 1) s = some (r, st) := by
  simp [executeN, h]

theorem executeN_error_step [DecidableEq K] {task : TaskFn K V E} {s : ExecState K V}
    {e : E} (herr : task s.current_goal s.store = .error (.Error e)) (fuel : Nat) :
    executeN task (fuel + 1) s = some (.error (.Error e), s.store) := by
  simp [executeN, execStep, herr]

theorem Store.contains_add [DecidableEq K] (st : Store K V) (k x : K) (v : V) :
    ((st.add k v).2).contains x = (decide (k = x) || st.contains x) := by
  by_cases h : k = x <;> simp [Store.add, Store.contains, Store.get, h]

theorem Store.get_eq_none_of_contains_false [DecidableEq K] {st : Store K V}
    {k : K} (h : st.contains k = false) : st.get k = none := by
  cases hg : st.get k with
  | none => rfl
  | some v => rw [Store.contains, hg] at h; simp at h

theorem Subtasker.solve_error [DecidableEq K] {st : Store K V} {g : K}
    {d : Dependency K} (h : Subtasker.solve st g = .error d) :
    st.contains d.key = false := by
  cases d with
  | mk dk =>
    cases hget : st.get g with
    | some v => simp [Subtasker.solve, hget] at h
    | none =>
      simp [Subtasker.solve, hget] at h
      subst h
      simp [Store.contains, hget]

theorem okVisits_chain_invariant [DecidableEq K] (task : TaskFn K V E)
    (hwf : RequestsOnlyMissing task) :
    ∀ (fuel : Nat) (s : ExecState K V), s.goalChain.Nodup →
      (okVisits task fuel s).Nodup ∧
      (∀ g ∈ okVisits task fuel s,
        g ∈ s.goalChain ∨ s.store.contains g = false) := by
  intro fuel
  induction fuel with
  | zero => intro s _; simp [okVisits]
  | succ n ih =>
    intro s hnd
    obtain ⟨store, stack, cur⟩ := s
    simp only [ExecState.goalChain] at hnd ⊢
    cases htask : task cur store with
    | ok v =>
      cases stack with
      | nil =>
        have hrw : okVisits task (n + 1) ⟨store, [], cur⟩ = [cur] := by
          simp [okVisits, execStep, htask]
        rw [hrw]
        exact ⟨List.nodup_singleton _, by simp⟩
      | cons p rest =>
        have hrw : okVisits task (n + 1) ⟨store, p :: rest, cur⟩ =
            cur :: okVisits task n ⟨(store.add cur v).2, rest, p⟩ := by
          simp [okVisits, execStep, htask]
        have hnd' : (ExecState.goalChain ⟨(store.add cur v).2, rest, p⟩).Nodup := by
          simp only [ExecState.goalChain]
          exact hnd.of_cons
        obtain ⟨ihnd, ihmem⟩ := ih ⟨(store.add cur v).2, rest, p⟩ hnd'
        simp only [ExecState.goalChain] at ihmem
        rw [hrw]
        constructor
        · refine List.nodup_cons.mpr ⟨?_, ihnd⟩
          intro hmem
          rcases ihmem cur hmem with hin | hfalse
          · exact (List.nodup_cons.mp hnd).1 hin
          · rw [Store.contains_add] at hfalse
            simp at hfalse
        · intro g hg
          rcases List.mem_cons.mp hg with rfl | hg'
          · exact Or.inl (List.mem_cons_self _ _)
          · rcases ihmem g hg' with hin | hfalse
            · exact Or.inl (List.mem_cons_of_mem _ hin)
            · rw [Store.contains_add] at hfalse
              simp only [Bool.or_eq_false_iff] at hfalse
              exact Or.inr hfalse.2
    | error i =>
      cases i with
      | Error e =>
        have hrw : okVisits task (n + 1) ⟨store, stack, cur⟩ = [] := by
          simp [okVisits, execStep, htask]
        rw [hrw]
        simp
      | Dependency d =>
        by_cases hmem : d.key ∈ cur :: stack
        · have hrw : okVisits task (n + 1) ⟨store, stack, cur⟩ = [] := by
            simp [okVisits, execStep, htask, hmem]
          rw [hrw]
          simp
        · have hrw : okVisits task (n + 1) ⟨store, stack, cur⟩ =
              okVisits task n ⟨store, cur :: stack, d.key⟩ := by
            simp [okVisits, execStep, htask, hmem]
          have hnd' : (ExecState.goalChain ⟨store, cur :: stack, d.key⟩).Nodup := by
            simp only [ExecState.goalChain]
            exact List.nodup_cons.mpr ⟨hmem, hnd⟩
          obtain ⟨ihnd, ihmem⟩ := ih _ hnd'
          simp only [ExecState.goalChain] at ihmem
          rw [hrw]
          refine ⟨ihnd, ?_⟩
          intro g hg
          rcases ihmem g hg with hin | hfalse
          · rcases List.mem_cons.mp hin with rfl | h2
            · exact Or.inr (hwf _ _ _ htask)
            · exact Or.inl h2
          · exact Or.inr hfalse

theorem addResults_chain_invariant [DecidableEq K] (task : TaskFn K V E)
    (hwf : RequestsOnlyMissing task) :
    ∀ (fuel : Nat) (s : ExecState K V),
      s.goalChain.Nodup →
      (∀ k ∈ s.goalChain.dropLast, s.store.contains k = false) →
      ∀ r ∈ addResults task fuel s, r = none := by
  intro fuel
  induction fuel with
  | zero => intro s _ _; simp [addResults]
  | succ n ih =>
    intro s hnd hdrop
    obtain ⟨store, stack, cur⟩ := s
    simp only [ExecState.goalChain] at hnd hdrop
    cases htask : task cur store with
    | ok v =>
      cases stack with
      | nil =>
        have hrw : addResults task (n + 1) ⟨store, [], cur⟩ = [] := by
          simp [addResults, execStep, htask]
        rw [hrw]
        simp
      | cons p rest =>
        have hrw : addResults task (n + 1) ⟨store, p :: rest, cur⟩ =
            (store.add cur v).1 ::
              addResults task n ⟨(store.add cur v).2, rest, p⟩ := by
          simp [addResults, execStep, htask]
        have hcur : store.contains cur = false := by
          refine hdrop cur ?_
          rw [List.dropLast_cons₂]
          exact List.mem_cons_self _ _
        rw [hrw]
        intro r hr
        rcases List.mem_cons.mp hr with rfl | hr'
        · exact Store.get_eq_none_of_contains_false hcur
        · refine ih ⟨(store.add cur v).2, rest, p⟩ ?_ ?_ r hr'
          · simp only [ExecState.goalChain]
            exact hnd.of_cons
          · simp only [ExecState.goalChain]
            intro k hk
            rw [Store.contains_add]
            have hk2 : k ∈ cur :: (p :: rest).dropLast :=
              List.mem_cons_of_mem _ hk
            rw [← List.dropLast_cons₂] at hk2
            have hkc : store.contains k = false := hdrop k (by
              rw [List.dropLast_cons₂]
              exact List.mem_cons_of_mem _ hk)
            have hne : cur ≠ k := by
              intro h
              subst h
              exact (List.nodup_cons.mp hnd).1
                ((List.dropLast_sublist (p :: rest)).subset hk)
            simp [hne, hkc]
    | error i =>
      cases i with
      | Error e =>
        have hrw : addResults task (n + 1) ⟨store, stack, cur⟩ = [] := by
          simp [addResults, execStep, htask]
        rw [hrw]
        simp
      | Dependency d =>
        by_cases hmem : d.key ∈ cur :: stack
        · have hrw : addResults task (n + 1) ⟨store, stack, cur⟩ = [] := by
            simp [addResults, execStep, htask, hmem]
          rw [hrw]
          simp
        · have hrw : addResults task (n + 1) ⟨store, stack, cur⟩ =
              addResults task n ⟨store, cur :: stack, d.key⟩ := by
            simp [addResults, execStep, htask, hmem]
          rw [hrw]
          refine ih ⟨store, cur :: stack, d.key⟩ ?_ ?_
          · simp only [ExecState.goalChain]
            exact List.nodup_cons.mpr ⟨hmem, hnd⟩
          · simp only [ExecState.goalChain]
            rw [List.dropLast_cons₂]
            intro k hk
            rcases List.mem_cons.mp hk with rfl | hk'
            · exact hwf _ _ _ htask
            · exact hdrop k hk'

theorem fibTask_requestsOnlyMissing : RequestsOnlyMissing (fibTask (E := Nat)) := by
  intro k st d h
  by_cases hk : k < 2
  · simp [fibTask, hk] at h
  · cases h1 : Subtasker.solve (V := Nat) st (k - 1) with
    | error d1 =>
      simp [fibTask, hk, h1] at h
      exact h ▸ Subtasker.solve_error h1
    | ok a =>
      cases h2 : Subtasker.solve (V := Nat) st (k - 2) with
      | error d2 =>
        simp [fibTask, hk, h1, h2] at h
        exact h ▸ Subtasker.solve_error h2
      | ok b =>
        simp [fibTask, hk, h1, h2] at h

/-- C1: during a single `execute` call, for a task that only requests
sub-goals the store does not yet contain (as every Rust task must, since
`Dependency` tokens come only from the subtasker), the successful branch of
`task.solve` is entered at most once per distinct goal key: the list of goals
whose solve returned `Ok` has no duplicates. -/
theorem successful_branch_at_most_once [DecidableEq K] (task : TaskFn K V E)
    (hwf : RequestsOnlyMissing task) (goal : K) (store : Store K V)
    (fuel : Nat) :
    (okVisits task fuel ⟨store, [], goal⟩).Nodup :=
  (okVisits_chain_invariant task hwf fuel ⟨store, [], goal⟩
    (by simp [ExecState.goalChain])).1

theorem successful_branch_at_most_once_witness :
    RequestsOnlyMissing (fibTask (E := Nat)) ∧
    (okVisits (fibTask (E := Nat)) 30 ⟨[], [], 10⟩).Nodup :=
  ⟨fibTask_requestsOnlyMissing,
    successful_branch_at_most_once _ fibTask_requestsOnlyMissing 10 [] 30⟩

/-- C7: the executor never invalidates or overwrites an existing store entry:
for a task that only requests store-missing sub-goals, every `store.add` the
loop performs is for a key not currently in the store and thus returns
`None`; moreover the subtasker only ever creates a `Dependency` for a
sub-goal the store does not contain. -/
theorem store_entries_never_overwritten [DecidableEq K] (task : TaskFn K V E)
    (hwf : RequestsOnlyMissing task) (goal : K) (store : Store K V)
    (fuel : Nat) :
    ((addResults task fuel ⟨store, [], goal⟩).all Option.isNone = true) ∧
    ∀ (st : Store K V) (g : K) (d : Dependency K),
      Subtasker.solve st g = .error d → st.contains d.key = false := by
  constructor
  · rw [List.all_eq_true]
    intro r hr
    rw [addResults_chain_invariant task hwf fuel ⟨store, [], goal⟩
      (by simp [ExecState.goalChain]) (by simp [ExecState.goalChain]) r hr]
    rfl
  · intro st g d h
    exact Subtasker.solve_error h

theorem store_entries_never_overwritten_witness :
    RequestsOnlyMissing (fibTask (E := Nat)) ∧
    (addResults (fibTask (E := Nat)) 30
      ⟨[((20 : Nat), (99 : Nat))], [], 10⟩).all Option.isNone = true :=
  ⟨fibTask_requestsOnlyMissing,
    (store_entries_never_overwritten _ fibTask_requestsOnlyMissing
      10 [(20, 99)] 30).1⟩

/-- C10: `Task::solve_all(goal)` is definitionally `execute(goal, task, S::default())`
on a freshly defaulted (empty) store — a pure wrapper with no extra behavior. -/
theorem solve_all_is_execute_on_default [DecidableEq K] (task : TaskFn K V E)
    (goal : K) (fuel : Nat) :
    solve_all task goal fuel = execute goal task ([] : Store K V) fuel := rfl

/-- C2: on a `DependencyMissing` interrupt for `sub`, `execute` pushes the
current goal and, if `sub` already occurs anywhere in the (pushed) dependency
stack, returns `Err(CircularDependency(sub))`; concretely, for the cyclic task
`0 → 1 → 2 → 0`, `execute(0, …)` returns `Err(CircularDependency(0))`. -/
theorem circular_dependency_detected [DecidableEq K] :
    (∀ (task : TaskFn K V E) (s : ExecState K V) (sub : K) (fuel : Nat),
        task s.current_goal s.store = .error (.Dependency ⟨sub⟩) →
        sub ∈ s.current_goal :: s.dependency_stack →
        executeN task (fuel + 1) s =
          some (.error (.CircularDependency sub), s.store)) ∧
    executeRun 0 cycleTask ([] : Store Nat Nat) 10 =
      some (.error (.CircularDependency 0), []) := by
  constructor
  · intro task s sub fuel hdep hmem
    simp [executeN, execStep, hdep, hmem]
  · rfl

theorem circular_dependency_detected_witness :
    cycleTask 2 ([] : Store Nat Nat) = .error (.Dependency ⟨0⟩) ∧
    (0 : Nat) ∈ (2 : Nat) :: [1, 0] ∧
    executeN cycleTask 6 ⟨([] : Store Nat Nat), [1, 0], 2⟩ =
      some (.error (.CircularDependency 0), []) :=
  ⟨rfl, by decide,
    circular_dependency_detected.1 cycleTask ⟨[], [1, 0], 2⟩ 0 5 rfl (by decide)⟩

/-- C4: when the task solves the current goal with `Ok v`: with an empty
dependency stack, `execute` returns `Ok v` (and the store is unchanged);
otherwise it pops the top into the parent goal, records `(current_goal, v)`
in the store, makes the parent current and continues the loop. -/
theorem ok_pops_records_and_continues [DecidableEq K] (task : TaskFn K V E)
    (s : ExecState K V) (v : V) (fuel : Nat)
    (hok : task s.current_goal s.store = .ok v) :
    (s.dependency_stack = [] →
      executeN task (fuel + 1) s = some (.ok v, s.store)) ∧
    (∀ p rest, s.dependency_stack = p :: rest →
      executeN task (fuel + 1) s =
        executeN task fuel ⟨(s.store.add s.current_goal v).2, rest, p⟩) := by
  constructor
  · intro hnil
    simp [executeN, execStep, hok, hnil]
  · intro p rest hcons
    simp [executeN, execStep, hok, hcons]

theorem ok_pops_records_and_continues_witness :
    constTask (7 : Nat) 0 ([] : Store Nat Nat) = .ok 7 ∧
    executeN (constTask (7 : Nat)) 1 ⟨([] : Store Nat Nat), [], 0⟩ =
      some (.ok 7, []) :=
  ⟨rfl, (ok_pops_records_and_continues (constTask 7) ⟨[], [], 0⟩ 7 0 rfl).1 rfl⟩

/-- C5: a fatal `Error(e)` interrupt makes `execute` return
`Err(DynamicError::Error(e))` immediately, with the store exactly as it was
at that point (no further entries are added). -/
theorem task_error_is_fatal [DecidableEq K] (task : TaskFn K V E)
    (s : ExecState K V) (e : E) (fuel : Nat)
    (herr : task s.current_goal s.store = .error (.Error e)) :
    executeN task (fuel + 1) s = some (.error (.Error e), s.store) :=
  executeN_error_step herr fuel

theorem task_error_is_fatal_witness :
    errTask (3 : Nat) 0 ([] : Store Nat Nat) = .error (.Error 3) ∧
    executeN (errTask (3 : Nat)) 1 ⟨([] : Store Nat Nat), [], 0⟩ =
      some (.error (.Error 3), []) :=
  ⟨rfl, task_error_is_fatal (errTask 3) ⟨[], [], 0⟩ 3 0 rfl⟩

/-- C8: `Subtasker::precheck` succeeds exactly when every goal of the batch is
contained in the store, and otherwise fails with a `Dependency` carrying the
first missing goal in iteration order (the store is read, never modified: in
the embedding `precheck` is a pure function of the store). -/
theorem precheck_reports_first_missing [DecidableEq K] (st : Store K V)
    (goals : List K) :
    (Subtasker.precheck st goals = .ok () ↔
      ∀ g ∈ goals, st.contains g = true) ∧
    (∀ g, firstMissing st goals = some g →
      Subtasker.precheck st goals = .error ⟨g⟩) := by
  induction goals with
  | nil => simp [Subtasker.precheck, firstMissing]
  | cons g gs ih =>
    by_cases hc : st.contains g = true
    · constructor
      · simpa [Subtasker.precheck, hc] using ih.1
      · intro g' hg'
        have hg2 : firstMissing st gs = some g' := by
          simpa [firstMissing, List.find?, hc] using hg'
        simpa [Subtasker.precheck, hc] using ih.2 g' hg2
    · simp only [Bool.not_eq_true] at hc
      constructor
      · constructor
        · intro h
          simp [Subtasker.precheck, hc] at h
        · intro h
          exact absurd (h g (by simp)) (by simp [hc])
      · intro g' hg'
        have hg2 : g = g' := by
          simpa [firstMissing, List.find?, hc] using hg'
        subst hg2
        simp [Subtasker.precheck, hc]

theorem precheck_reports_first_missing_witness :
    firstMissing [((1 : Nat), (10 : Nat))] [1, 2, 3] = some 2 ∧
    Subtasker.precheck [((1 : Nat), (10 : Nat))] [1, 2, 3] = .error ⟨2⟩ :=
  ⟨rfl, (precheck_reports_first_missing [((1 : Nat), (10 : Nat))] [1, 2, 3]).2 2 rfl⟩

/-- C9: even when the store passed to `execute` already contains a solution
for the initial goal, the loop's first action is to invoke `task.solve` on
the initial goal — no short-circuit lookup happens, so the outcome is
dictated by the task (here: a fatal error) and not by the stored value. -/
theorem no_short_circuit_on_seeded_goal [DecidableEq K] (task : TaskFn K V E)
    (goal : K) (store : Store K V) (fuel : Nat) (e : E)
    (hpre : store.contains goal = true)
    (htask : task goal store = .error (.Error e)) :
    (visited task (fuel + 1) ⟨store, [], goal⟩).head? = some goal ∧
    executeRun goal task store (fuel + 1) = some (.error (.Error e), store) := by
  refine ⟨by simp [visited], ?_⟩
  exact executeN_error_step htask fuel

theorem no_short_circuit_on_seeded_goal_witness :
    Store.contains [((0 : Nat), (5 : Nat))] 0 = true ∧
    errTask (3 : Nat) 0 [((0 : Nat), (5 : Nat))] = .error (.Error 3) ∧
    (visited (errTask (3 : Nat)) 1 ⟨[((0 : Nat), (5 : Nat))], [], 0⟩).head? = some 0 ∧
    executeRun 0 (errTask (3 : Nat)) [((0 : Nat), (5 : Nat))] 1 =
      some (.error (.Error 3), [((0 : Nat), (5 : Nat))]) := by
  refine ⟨rfl, rfl, ?_⟩
  exact no_short_circuit_on_seeded_goal (errTask 3) 0 [((0 : Nat), (5 : Nat))] 0 3 rfl rfl

/-- C3 (counterexample): `execute(10, fib_task, empty_store)` does return
`Ok 55`, but the memo store after execution does not contain the top-level
goal `10` — the root solution is returned to the caller, never added — so the
claim that the store ends with entries for all of `0..=10` is false. -/
theorem fib_top_goal_not_stored :
    (executeRun 10 (fibTask (E := Nat)) ([] : Store Nat Nat) 30).map
        (fun r => (r.1, r.2.contains 10)) =
      some (.ok 55, false) := rfl

/-- C3 (amended): `execute(10, fib_task, empty_store)` returns `Ok 55` and
the memo store after execution contains entries for every key `0..=9`; the
top-level goal `10` is absent because its solution is returned directly. -/
theorem fib_memoizes_all_proper_subgoals :
    (executeRun 10 (fibTask (E := Nat)) ([] : Store Nat Nat) 30).map
        (fun r => (r.1, (List.range 10).all (fun k => r.2.contains k),
          r.2.contains 10)) =
      some (.ok 55, true, false) := rfl

theorem stepN_split [DecidableEq K] (task : TaskFn K V E) :
    ∀ (m n : Nat) (s s₁ s₂ : ExecState K V),
      stepN task m s = some s₁ → stepN task n s₁ = some s₂ →
      stepN task (m + n) s = some s₂ := by
  intro m
  induction m with
  | zero =>
    intro n s s₁ s₂ h1 h2
    simp only [stepN, Option.some_inj] at h1
    subst h1
    simpa using h2
  | succ m ihm =>
    intro n s s₁ s₂ h1 h2
    cases hstep : execStep task s with
    | next s' =>
      have h1' : stepN task m s' = some s₁ := by
        simpa [stepN, hstep] using h1
      rw [Nat.succ_add]
      simpa [stepN, hstep] using ihm n s' s₁ s₂ h1' h2
    | done r st => simp [stepN, hstep] at h1

theorem executeN_of_stepN [DecidableEq K] (task : TaskFn K V E) :
    ∀ (n : Nat) (s s' : ExecState K V), stepN task n s = some s' →
      ∀ fuel, executeN task (n + fuel) s = executeN task fuel s' := by
  intro n
  induction n with
  | zero =>
    intro s s' h fuel
    simp only [stepN, Option.some_inj] at h
    subst h
    rw [Nat.zero_add]
  | succ n ihn =>
    intro s s' h fuel
    cases hstep : execStep task s with
    | next s₁ =>
      have h' : stepN task n s₁ = some s' := by
        simpa [stepN, hstep] using h
      rw [Nat.succ_add, executeN_next hstep]
      exact ihn s₁ s' h' fuel
    | done r st => simp [stepN, hstep] at h

theorem countP_lt_of_witness {α : Type} (p q : α → Bool) :
    ∀ (l : List α), (∀ x ∈ l, q x = true → p x = true) →
      ∀ d ∈ l, p d = true → q d = false →
        l.countP q < l.countP p := by
  intro l
  induction l with
  | nil => intro _ d hd; simp at hd
  | cons a t ih =>
    intro hsub d hd hpd hqd
    rw [List.countP_cons, List.countP_cons]
    rcases List.mem_cons.mp hd with rfl | hd'
    · have h1 : t.countP q ≤ t.countP p :=
        List.countP_mono_left (fun x hx => hsub x (List.mem_cons_of_mem _ hx))
      rw [hqd, hpd]
      simp only [Bool.false_eq_true, if_false, if_true]
      omega
    · have h1 : t.countP q < t.countP p :=
        ih (fun x hx => hsub x (List.mem_cons_of_mem _ hx)) d hd' hpd hqd
      have h2 : (if q a = true then 1 else 0) ≤ (if p a = true then 1 else 0) := by
        by_cases hqa : q a = true
        · rw [if_pos hqa, if_pos (hsub a (List.mem_cons_self _ _) hqa)]
        · rw [if_neg hqa]
          omega
      omega

theorem chain_transGen {α : Type} {R : α → α → Prop} :
    ∀ (stk : List α) (k : α), List.Chain R k stk →
      ∀ d ∈ stk, Relation.TransGen R k d := by
  intro stk
  induction stk with
  | nil => intro k _ d hd; simp at hd
  | cons b t ih =>
    intro k hch d hd
    cases hch with
    | cons hR hch' =>
      rcases List.mem_cons.mp hd with rfl | hd'
      · exact Relation.TransGen.single hR
      · exact Relation.TransGen.head hR (ih b hch' d hd')

theorem wf_no_cycle {α : Type} {R : α → α → Prop} (hwf : WellFounded R)
    (a : α) : ¬ Relation.TransGen R a a :=
  fun h => (hwf.transGen).asymmetric a a h h

theorem resolve_goal [DecidableEq K] (deps : K → List K)
    (value : K → Store K V → V) (hwf : WellFounded (DepRel deps)) :
    ∀ (k : K) (st : Store K V) (stk : List K),
      List.Chain (DepRel deps) k stk →
      ∃ (n : Nat) (st' : Store K V),
        stepN (taskOf (E := E) deps value) n ⟨st, stk, k⟩ =
          some ⟨st', stk, k⟩ ∧
        (∀ x, st.contains x = true → st'.contains x = true) ∧
        firstMissing st' (deps k) = none := by
  intro k
  induction k using hwf.induction with
  | h k ihk =>
    have inner : ∀ (m : Nat) (st : Store K V),
        (deps k).countP (fun g => !st.contains g) ≤ m →
        ∀ (stk : List K), List.Chain (DepRel deps) k stk →
        ∃ (n : Nat) (st' : Store K V),
          stepN (taskOf (E := E) deps value) n ⟨st, stk, k⟩ =
            some ⟨st', stk, k⟩ ∧
          (∀ x, st.contains x = true → st'.contains x = true) ∧
          firstMissing st' (deps k) = none := by
      intro m
      induction m with
      | zero =>
        intro st hcount stk _
        refine ⟨0, st, by simp [stepN], fun x h => h, ?_⟩
        rw [firstMissing, List.find?_eq_none]
        intro x hx
        have hz : (deps k).countP (fun g => !st.contains g) = 0 :=
          Nat.le_zero.mp hcount
        rw [List.countP_eq_zero] at hz
        simpa using hz x hx
      | succ m ihm =>
        intro st hcount stk hchain
        cases hfm : firstMissing st (deps k) with
        | none => exact ⟨0, st, by simp [stepN], fun x h => h, hfm⟩
        | some d =>
          have hd_mem : d ∈ deps k := List.mem_of_find?_eq_some hfm
          have hd_miss : st.contains d = false := by
            have hp := List.find?_some hfm
            simpa using hp
          have hd_rel : DepRel deps d k := hd_mem
          have hd_not : d ∉ k :: stk := by
            intro hd_in
            rcases List.mem_cons.mp hd_in with rfl | hd_in'
            · exact wf_no_cycle hwf d (Relation.TransGen.single hd_rel)
            · exact wf_no_cycle hwf d
                (Relation.TransGen.head hd_rel
                  (chain_transGen stk k hchain d hd_in'))
          have hstepA : execStep (taskOf (E := E) deps value) ⟨st, stk, k⟩ =
              .next ⟨st, k :: stk, d⟩ := by
            simp [execStep, taskOf, hfm, hd_not]
          obtain ⟨n₁, st₁, hrun₁, hmono₁, hdone₁⟩ :=
            ihk d hd_rel st (k :: stk) (List.Chain.cons hd_rel hchain)
          have hstepB : execStep (taskOf (E := E) deps value)
              ⟨st₁, k :: stk, d⟩ =
              .next ⟨(st₁.add d (value d st₁)).2, stk, k⟩ := by
            simp [execStep, taskOf, hdone₁]
          set st₂ := (st₁.add d (value d st₁)).2 with hst₂
          have hmono₂ : ∀ x, st.contains x = true → st₂.contains x = true := by
            intro x hx
            rw [hst₂, Store.contains_add, hmono₁ x hx]
            simp
          have hd_in₂ : st₂.contains d = true := by
            rw [hst₂, Store.contains_add]
            simp
          have hlt : (deps k).countP (fun g => !st₂.contains g) <
              (deps k).countP (fun g => !st.contains g) := by
            refine countP_lt_of_witness _ _ (deps k) ?_ d hd_mem ?_ ?_
            · intro x _ hq
              simp only [Bool.not_eq_true'] at hq ⊢
              cases hc : st.contains x with
              | false => rfl
              | true =>
                have h2 := hmono₂ x hc
                simp [h2] at hq
            · simp [hd_miss]
            · simp [hd_in₂]
          have hcount₂ : (deps k).countP (fun g => !st₂.contains g) ≤ m := by
            omega
          obtain ⟨n₂, st', hrun₂, hmono₃, hdone₂⟩ := ihm st₂ hcount₂ stk hchain
          refine ⟨1 + (n₁ + (1 + n₂)), st', ?_, ?_, hdone₂⟩
          · refine stepN_split _ 1 (n₁ + (1 + n₂)) ⟨st, stk, k⟩
              ⟨st, k :: stk, d⟩ ⟨st', stk, k⟩ (by simp [stepN, hstepA]) ?_
            refine stepN_split _ n₁ (1 + n₂) ⟨st, k :: stk, d⟩
              ⟨st₁, k :: stk, d⟩ ⟨st', stk, k⟩ hrun₁ ?_
            refine stepN_split _ 1 n₂ ⟨st₁, k :: stk, d⟩ ⟨st₂, stk, k⟩
              ⟨st', stk, k⟩ (by simp [stepN, hstepB]) ?_
            exact hrun₂
          · intro x hx
            exact hmono₃ x (hmono₂ x hx)
    intro st stk hchain
    exact inner ((deps k).countP (fun g => !st.contains g)) st
      (le_refl _) stk hchain

/-- C6: if the sub-goal relation induced by the task is well-founded (a
finite DAG over the goals reachable from the initial goal), and the task
succeeds as soon as all its requested sub-goals are in the store, then
`execute` terminates — some fuel makes the loop finish — and returns `Ok`. -/
theorem finite_dag_terminates_ok [DecidableEq K] (deps : K → List K)
    (value : K → Store K V → V) (hwf : WellFounded (DepRel deps))
    (goal : K) (store : Store K V) :
    ∃ (fuel : Nat) (v : V) (st' : Store K V),
      executeRun goal (taskOf (E := E) deps value) store fuel =
        some (.ok v, st') := by
  obtain ⟨n, st', hrun, hmono, hdone⟩ :=
    resolve_goal (E := E) deps value hwf goal store [] List.Chain.nil
  refine ⟨n + 1, value goal st', st', ?_⟩
  rw [executeRun, executeN_of_stepN (taskOf deps value) n _ _ hrun 1]
  have hstep : execStep (taskOf (E := E) deps value) ⟨st', [], goal⟩ =
      .done (.ok (value goal st')) st' := by
    simp [execStep, taskOf, hdone]
  exact executeN_done hstep 0

theorem depsFib_subrel : ∀ {a b : Nat}, DepRel depsFib a b → a < b := by
  intro a b h
  by_cases hb : b < 2
  · simp [DepRel, depsFib, hb] at h
  · simp [DepRel, depsFib, hb] at h
    rcases h with rfl | rfl <;> omega

theorem depsFib_wf : WellFounded (DepRel depsFib) :=
  Subrelation.wf (fun h => depsFib_subrel h) Nat.lt_wfRel.wf

theorem finite_dag_terminates_ok_witness :
    ∃ (fuel : Nat) (v : Nat) (st' : Store Nat Nat),
      executeRun 5 (taskOf (E := Nat) depsFib valueFib)
          ([] : Store Nat Nat) fuel =
        some (.ok v, st') :=
  finite_dag_terminates_ok depsFib valueFib depsFib_wf 5 []

end DynamicTheorems
